import Mathlib

/-!
Verification of the hierarchical code-chunking engine and its prompt/batch
wrapper (`utils/code_chunking.py`, `utils/chunk_processor.py`).

The Python modules are shallowly embedded: pure functions become Lean
functions over `String`/`List`; the stateful packing and batching loops
become explicit folds over state records.  Strings are modelled through
their character lists (`String.data`), and every helper is written by
structural recursion so that concrete inputs evaluate inside the kernel.

Modelling notes, fixed once for the whole file:
* Python `\w` and `\s` are Unicode-aware; the embedding restricts them to
  their ASCII meaning (`[A-Za-z0-9_]` and `[ \t\n\r\x0b\x0c]`), which is
  exact for every input considered here.
* The configured model context length (environment variable
  `CURRENT_MODEL_CONTEXT_LENGTH`, read at call time) is passed explicitly
  as a `Nat` parameter `L`; re-reading the environment on every call is
  modelled by every function taking `L` afresh.
* `int(x * 0.8)` and `int(x * 0.2)` on a `Nat`-valued `x` are modelled as
  `4 * x / 5` and `x / 5` (floor division).  Since the IEEE doubles `0.8`
  and `0.2` are slightly above the rationals 4/5 and 1/5, the truncated
  float product agrees with the rational floor for all context lengths in
  range (the excess is below `2^-40` of an integer boundary), so the
  `Nat` formulas coincide with CPython's results on the values used here.
* The configuration modelled is the one where no tree-sitter grammar is
  available (`TREE_SITTER_AVAILABLE = False`, the import-guard fallback in
  `code_chunking.py`), so `TreeSitterChunker.extract_chunks` always takes
  its line-based fallback path.  Grammar-backed parsing is an external
  C library and outside the embedding.
-/

/-- Python `\s` (ASCII): the whitespace characters recognised by `re` and
by `str.strip`. -/
def isPySpace (c : Char) : Bool :=
  c = ' ' || c = '\t' || c = '\n' || c = '\x0d' || c = '\x0b' || c = '\x0c'

/-- Python `\w` (ASCII): word characters. -/
def isWordChar (c : Char) : Bool :=
  c.isAlphanum || c = '_'

/-- `str.strip()` on a character list. -/
def trimChars (cs : List Char) : List Char :=
  ((cs.dropWhile isPySpace).reverse.dropWhile isPySpace).reverse

/-- Count of `re.findall(r'\b\w+\b|[^\w\s]', text)`: one token per maximal
run of word characters plus one per character that is neither a word
character nor whitespace.  The boolean argument records whether the
previous character was a word character. -/
def countTokens : List Char → Bool → Nat
  | [], _ => 0
  | c :: cs, prevWord =>
    if isWordChar c then
      (if prevWord then 0 else 1) + countTokens cs true
    else if isPySpace c then
      countTokens cs false
    else
      1 + countTokens cs false

/-- `estimate_tokens` (code_chunking.py, lines 212-223): strip, then count
word runs and punctuation characters. -/
def estimate_tokens (text : String) : Nat :=
  countTokens (trimChars text.data) false

/-- Character-level split on a single separator, matching Python
`str.split(sep)` for a one-character separator (`"".split(sep) = [""]`). -/
def splitOnChar (sep : Char) : List Char → List (List Char)
  | [] => [[]]
  | c :: cs =>
    match splitOnChar sep cs with
    | [] => [[c]]
    | h :: t => if c = sep then [] :: h :: t else (c :: h) :: t

/-- `sep.join(..)` for a one-character separator. -/
def joinSep (sep : Char) : List String → String
  | [] => ""
  | [s] => s
  | s :: rest => s ++ String.mk [sep] ++ joinSep sep rest

/-- `content.split('\n')` as a list of strings. -/
def splitLines (s : String) : List String :=
  (splitOnChar '\n' s.data).map String.mk

/-- `file_path.split(';')` as a list of strings. -/
def strSplitSemi (s : String) : List String :=
  (splitOnChar ';' s.data).map String.mk

/-- `content.count('\n')`. -/
def countChar (c : Char) (s : String) : Nat :=
  (s.data.filter (· = c)).length

/-- `text.strip()` is empty, i.e. Python falsiness of the stripped string. -/
def isBlank (s : String) : Prop :=
  trimChars s.data = []

instance (s : String) : Decidable (isBlank s) :=
  inferInstanceAs (Decidable (trimChars s.data = []))

/-- `os.path.basename` (posix): the part after the last `/`. -/
def basename (p : String) : String :=
  String.mk (p.data.reverse.takeWhile (· ≠ '/')).reverse

/-- `os.path.dirname` (posix): drop the basename and any trailing slashes,
keeping a head made only of slashes intact. -/
def dirname (p : String) : String :=
  let cs := p.data
  let tail := cs.reverse.takeWhile (· ≠ '/')
  if tail.length = cs.length then ""
  else
    let head := cs.take (cs.length - tail.length)
    if head.all (· = '/') then String.mk head
    else String.mk (head.reverse.dropWhile (· = '/')).reverse

/-- Python `pat in hay` (substring containment). -/
def occursIn (pat : List Char) : List Char → Bool
  | [] => pat.isPrefixOf []
  | c :: rest => pat.isPrefixOf (c :: rest) || occursIn pat rest

/-- Python `pat in hay` on strings. -/
def strContains (hay pat : String) : Bool :=
  occursIn pat.data hay.data

/-- Path components, empty ones removed, as used by `os.path.relpath`. -/
def splitSlash (s : String) : List String :=
  ((splitOnChar '/' s.data).map String.mk).filter (· ≠ "")

/-- Length of the common prefix of two component lists. -/
def commonLen : List String → List String → Nat
  | a :: as', b :: bs => if a = b then 1 + commonLen as' bs else 0
  | _, _ => 0

/-- `os.path.relpath(path, start)` (posix), modelled without the
process-CWD-dependent `abspath` normalisation step (both arguments are
used as given).  Its output feeds only the descriptive text of directory
records, never a `files` entry. -/
def relpath (path start : String) : String :=
  let ps := splitSlash path
  let ss := splitSlash start
  let n := commonLen ps ss
  let parts := List.replicate (ss.length - n) ".." ++ ps.drop n
  if parts = [] then "." else joinSep '/' parts

/-- `str.lower()` (ASCII). -/
def strLower (s : String) : String :=
  String.mk (s.data.map Char.toLower)

/-- `os.path.splitext(p)[1].lower()`: the extension including the dot,
empty when the basename has no dot after its leading dots. -/
def extOf (p : String) : String :=
  let b := (p.data.reverse.takeWhile (· ≠ '/')).reverse
  let rest := b.dropWhile (· = '.')
  let tail := rest.reverse.takeWhile (· ≠ '.')
  if tail.length = rest.length then ""
  else strLower (String.mk ('.' :: tail.reverse))

/-- `str.replace(old, new)` with a non-empty pattern: non-overlapping
left-to-right replacement.  Structural recursion on a fuel bounded by the
input length (each step consumes at least one character). -/
def replaceFuel (pat rep : List Char) : Nat → List Char → List Char
  | _, [] => []
  | 0, s => s
  | f + 1, c :: cs =>
    if pat ≠ [] ∧ pat.isPrefixOf (c :: cs) then
      rep ++ replaceFuel pat rep f (List.drop (pat.length - 1) cs)
    else
      c :: replaceFuel pat rep f cs

/-- `s.replace(pat, rep)` for a non-empty `pat`. -/
def strReplace (s pat rep : String) : String :=
  String.mk (replaceFuel pat.data rep.data s.data.length s.data)


/-- `CodeChunk` (code_chunking.py, lines 225-243).  The `parent_chunk`
back-reference is omitted: it feeds only `get_hierarchy_path`, which is
never called on the packing path, and nothing downstream reads it. -/
structure CodeChunk where
  content : String
  file_path : String
  lang : String
  level : Nat
  start_line : Nat
  end_line : Nat
  node_type : String
  est_tokens : Nat
deriving DecidableEq, Repr

/-- `CodeChunk.__init__`: `est_tokens` is computed from the content once,
at construction. -/
def mkCodeChunk (content file_path lang : String) (level start_line end_line : Nat)
    (node_type : String) : CodeChunk :=
  ⟨content, file_path, lang, level, start_line, end_line, node_type,
   estimate_tokens content⟩

/-- `LANGUAGE_MAPPING` (code_chunking.py, lines 45-93). -/
def LANGUAGE_MAPPING : List (String × String) :=
  [(".py", "python"), (".pyi", "python"), (".pyx", "python"),
   (".java", "java"),
   (".rs", "rust"),
   (".go", "go"),
   (".scala", "scala"),
   (".clj", "clojure"), (".cljc", "clojure"), (".cljs", "clojure"),
   (".ts", "typescript"), (".tsx", "tsx"), (".js", "javascript"), (".jsx", "javascript"),
   (".cs", "c_sharp"),
   (".fs", "f_sharp"), (".fsx", "f_sharp"),
   (".c", "c"), (".h", "c"), (".cpp", "cpp"), (".hpp", "cpp"), (".cc", "cpp"),
   (".rb", "ruby"), (".php", "php"), (".swift", "swift"), (".kt", "kotlin")]

/-- `get_chunker_for_file`'s extension lookup: `None` for unmapped
extensions. -/
def getLang (p : String) : Option String :=
  List.lookup (extOf p) LANGUAGE_MAPPING

/-- `get_model_context_length` returns the environment value, passed here
explicitly as `L`; `get_max_input_tokens` is `int(L * 0.8)`
(code_chunking.py, lines 30-37). -/
def get_max_input_tokens (L : Nat) : Nat :=
  4 * L / 5

/-- `int(L * 0.2)`: the response-token reservation computed afresh at each
call of `process_code_for_llm` (chunk_processor.py, line 102) and displayed
by the test driver; the complement of `get_max_input_tokens`. -/
def reserved_response_tokens (L : Nat) : Nat :=
  L / 5

/-- First match of `r'^\s*(class|interface|namespace|module|enum)\s+([\w\d_]+)'`
on one line, returning capture group 2.  With `re.search` and an
unanchored-only-at-0 `^`, a match exists iff after the leading whitespace
the line starts with a keyword, then at least one whitespace character,
then at least one word character; the capture is the maximal word run. -/
def classSearch (line : String) : Option String :=
  let cs := line.data.dropWhile isPySpace
  let tryKw := fun (kw : String) =>
    if kw.data.isPrefixOf cs then
      let r := cs.drop kw.data.length
      match r with
      | [] => none
      | c :: _ =>
        if isPySpace c then
          let r2 := r.dropWhile isPySpace
          match r2 with
          | [] => none
          | c2 :: _ =>
            if isWordChar c2 then some (String.mk (r2.takeWhile isWordChar)) else none
        else none
    else none
  match tryKw "class" with
  | some n => some n
  | none =>
  match tryKw "interface" with
  | some n => some n
  | none =>
  match tryKw "namespace" with
  | some n => some n
  | none =>
  match tryKw "module" with
  | some n => some n
  | none => tryKw "enum"

/-- Branch `\w+\s+\w+\(` of the function pattern followed by
`\s*([\w\d_]+)`: a word run, whitespace, a word run, a literal `(`, then
optional whitespace and the captured word run.  Greedy matching with this
pattern is equivalent to maximal-munch because word and whitespace classes
are disjoint. -/
def declCallSearch (cs : List Char) : Option String :=
  let w1 := cs.takeWhile isWordChar
  if w1 = [] then none
  else
    let r1 := cs.drop w1.length
    let sp := r1.takeWhile isPySpace
    if sp = [] then none
    else
      let r2 := r1.drop sp.length
      let w2 := r2.takeWhile isWordChar
      if w2 = [] then none
      else
        match r2.drop w2.length with
        | '(' :: r3 =>
          let r4 := r3.dropWhile isPySpace
          match r4 with
          | [] => none
          | c :: _ => if isWordChar c then some (String.mk (r4.takeWhile isWordChar)) else none
        | _ => none

/-- First match of
`r'^\s*(function|def|fn|method|\w+\s+\w+\()\s*([\w\d_]+)'` on one line,
returning capture group 2; alternatives are tried in the pattern's order. -/
def functionSearch (line : String) : Option String :=
  let cs := line.data.dropWhile isPySpace
  let tryKw := fun (kw : String) =>
    if kw.data.isPrefixOf cs then
      let r := (cs.drop kw.data.length).dropWhile isPySpace
      match r with
      | [] => none
      | c :: _ => if isWordChar c then some (String.mk (r.takeWhile isWordChar)) else none
    else none
  match tryKw "function" with
  | some n => some n
  | none =>
  match tryKw "def" with
  | some n => some n
  | none =>
  match tryKw "fn" with
  | some n => some n
  | none =>
  match tryKw "method" with
  | some n => some n
  | none => declCallSearch cs

/-- `'\n'.join(lines)`. -/
def joinNL (ls : List String) : String :=
  joinSep '\n' ls

/-- Loop state of `_fallback_extract_chunks` (code_chunking.py,
lines 495-559): current open class/function (start line and name), their
accumulated lines, and the chunk list being appended to. -/
structure FBState where
  cls : Option (Nat × String)
  clsLines : List String
  fn : Option (Nat × String)
  fnLines : List String
  chunks : List CodeChunk
deriving Repr

/-- One iteration of the `for i, line in enumerate(lines)` loop of
`_fallback_extract_chunks`. -/
def fbLine (lang file_path : String) (st : FBState) (il : Nat × String) : FBState :=
  let i := il.1
  let line := il.2
  match classSearch line, st.fn with
  | some cname, none =>
    let st1 :=
      match st.cls with
      | some cso =>
        { st with chunks := st.chunks ++
            [mkCodeChunk (joinNL st.clsLines) file_path lang 3 cso.1 (i - 1)
              ("class_" ++ cso.2)] }
      | none => st
    { st1 with cls := some (i, cname), clsLines := [line] }
  | _, _ =>
    match functionSearch line with
    | some fname =>
      let st1 :=
        match st.fn with
        | some fso =>
          { st with chunks := st.chunks ++
              [mkCodeChunk (joinNL st.fnLines) file_path lang 4 fso.1 (i - 1)
                ("function_" ++ fso.2)] }
        | none => st
      let st2 := { st1 with fn := some (i, fname), fnLines := [line] }
      match st2.cls with
      | some _ => { st2 with clsLines := st2.clsLines ++ [line] }
      | none => st2
    | none =>
      let st1 :=
        match st.fn with
        | some _ => { st with fnLines := st.fnLines ++ [line] }
        | none => st
      match st1.cls with
      | some _ => { st1 with clsLines := st1.clsLines ++ [line] }
      | none => st1

/-- Closing step after the line loop of `_fallback_extract_chunks`
(code_chunking.py, lines 561-593): flush an open function, then an open
class only when no function is open. -/
def fbFinish (lang file_path : String) (numLines : Nat) (st : FBState) : List CodeChunk :=
  let st1 :=
    match st.fn with
    | some fso =>
      { st with chunks := st.chunks ++
          [mkCodeChunk (joinNL st.fnLines) file_path lang 4 fso.1 (numLines - 1)
            ("function_" ++ fso.2)] }
    | none => st
  match st.cls, st.fn with
  | some cso, none =>
    st1.chunks ++
      [mkCodeChunk (joinNL st.clsLines) file_path lang 3 cso.1 (numLines - 1)
        ("class_" ++ cso.2)]
  | _, _ => st1.chunks

/-- Pair each list element with its index, starting at `n`
(Python `enumerate`). -/
def enumFrom (n : Nat) : List α → List (Nat × α)
  | [] => []
  | x :: xs => (n, x) :: enumFrom (n + 1) xs

/-- `TreeSitterChunker._fallback_extract_chunks`. -/
def fallback_extract_chunks (lang file_path content : String)
    (base_chunks : List CodeChunk) : List CodeChunk :=
  let lines := splitLines content
  let stF := (enumFrom 0 lines).foldl (fbLine lang file_path)
    ⟨none, [], none, [], base_chunks⟩
  fbFinish lang file_path lines.length stF

/-- `TreeSitterChunker.extract_chunks` (code_chunking.py, lines 366-396)
in the fallback configuration: whitespace-only content yields no chunks at
all; otherwise a level-2 file chunk is created and the line-based fallback
appends level-3/4 chunks. -/
def extract_chunks (lang file_path content : String) : List CodeChunk :=
  if isBlank content then []
  else
    fallback_extract_chunks lang file_path content
      [mkCodeChunk content file_path lang 2 0 (countChar '\n' content) "file"]

/-- `DirectoryChunker.chunk_directory` (code_chunking.py, lines 709-746):
group files by directory in first-occurrence order and emit one level-1
record per directory whose `file_path` is the directory path. -/
def dedupAcc : List String → List String → List String
  | [], acc => acc.reverse
  | x :: xs, acc => if x ∈ acc then dedupAcc xs acc else dedupAcc xs (x :: acc)

/-- The descriptive content of one directory record. -/
def dirRecordContent (base_dir dir : String) (dfiles : List String) : String :=
  let rel_dir := if strContains dir base_dir then relpath dir base_dir else dir
  "Directory: " ++ rel_dir ++ "\n\nFiles:\n" ++
    String.join (dfiles.map fun f =>
      "- " ++ (if strContains f base_dir then relpath f base_dir else f) ++ "\n")

/-- `DirectoryChunker.chunk_directory`. -/
def chunk_directory (base_dir : String) (files : List String) : List CodeChunk :=
  let keys := dedupAcc (files.map dirname) []
  keys.map fun dir =>
    mkCodeChunk (dirRecordContent base_dir dir (files.filter fun f => dirname f = dir))
      dir "text" 1 0 0 "directory"

/-- Per-file part of `CodeChunkingManager.chunk_files` (code_chunking.py,
lines 797-823): files missing from `file_contents` are skipped; mapped
extensions go through `extract_chunks`; unmapped extensions get a bare
level-2 file record. -/
def fileRecords (contents : List (String × String)) (file_path : String) : List CodeChunk :=
  match List.lookup file_path contents with
  | none => []
  | some content =>
    match getLang file_path with
    | some lang => extract_chunks lang file_path content
    | none => [mkCodeChunk content file_path "text" 2 0 (countChar '\n' content) "file"]

/-- `CodeChunkingManager.chunk_files`: directory records first, then the
per-file records in input order. -/
def chunk_files (base_dir : String) (file_paths : List String)
    (file_contents : List (String × String)) : List CodeChunk :=
  chunk_directory base_dir file_paths ++ (file_paths.map (fileRecords file_contents)).flatten

/-- Python string `<`: strict lexicographic comparison by code points. -/
def charListLT : List Char → List Char → Bool
  | [], [] => false
  | [], _ :: _ => true
  | _ :: _, [] => false
  | a :: as', b :: bs => if a < b then true else if b < a then false else charListLT as' bs

/-- Python string `<` on `String`. -/
def strLt (a b : String) : Bool :=
  charListLT a.data b.data

/-- Sort key order of `sorted(chunks, key=lambda c: (c.file_path, c.start_line))`:
lexicographic on the pair, strings compared by code points. -/
def chunkKeyLE (a b : CodeChunk) : Prop :=
  strLt a.file_path b.file_path = true ∨
    (a.file_path = b.file_path ∧ a.start_line ≤ b.start_line)

instance : DecidableRel chunkKeyLE := fun a b =>
  inferInstanceAs (Decidable (strLt a.file_path b.file_path = true ∨
    (a.file_path = b.file_path ∧ a.start_line ≤ b.start_line)))

/-- Buffer state of `create_overlapping_chunks` (code_chunking.py,
lines 857-861): accumulated content, running token counter, contributing
file set (modelled as an insertion-ordered duplicate-free list, matching
Python-set membership; only membership and the joined string reach the
output), ordered record list, and the chunks emitted so far. -/
structure PackState where
  content : String
  tokens : Nat
  files : List String
  hierarchy : List CodeChunk
  out : List CodeChunk
deriving Repr

/-- `current_files.add(path)`. -/
def addFile (fs : List String) (f : String) : List String :=
  if f ∈ fs then fs else fs ++ [f]

/-- The `for prev_chunk in reversed(current_hierarchy)` walk
(code_chunking.py, lines 880-886): accumulate the most recent records
whose combined estimates stay within `overlap_tokens`, restoring original
order; stop at the first record that does not fit. -/
def overlapSeedGo (overlap_tokens : Nat) : List CodeChunk → Nat → List CodeChunk → List CodeChunk
  | [], _, acc => acc
  | c :: rest, cnt, acc =>
    if cnt + c.est_tokens ≤ overlap_tokens then
      overlapSeedGo overlap_tokens rest (cnt + c.est_tokens) (c :: acc)
    else acc

/-- The overlap seed the source computes into the local `overlap_chunks`.
The source never reads this value afterwards. -/
def overlapSeed (overlap_tokens : Nat) (hierarchy : List CodeChunk) : List CodeChunk :=
  overlapSeedGo overlap_tokens hierarchy.reverse 0 []

/-- The combined chunk built when a buffer is closed (code_chunking.py,
lines 868-875 and 907-915): level 0, language "mixed", file path the
semicolon join of the contributing files, token estimate recomputed from
the full packed content by `CodeChunk.__init__`. -/
def closeChunk (st : PackState) : CodeChunk :=
  mkCodeChunk st.content (joinSep ';' st.files) "mixed" 0 0 0 "combined_chunk"

/-- Close-buffer branch of the packing loop (code_chunking.py,
lines 866-891).  When the incoming record would overflow a non-empty
buffer the buffer is emitted; the overlap seed is then computed but left
unused, and the buffer is reset only in the `overlap_tokens == 0` branch —
with a positive overlap budget the buffer keeps its entire contents. -/
def packClose (max_tokens overlap_tokens : Nat) (st : PackState) (chunk : CodeChunk) :
    PackState :=
  if st.tokens + chunk.est_tokens > max_tokens ∧ st.content ≠ "" then
    if overlap_tokens > 0 then
      let _seed := overlapSeed overlap_tokens st.hierarchy
      { st with out := st.out ++ [closeChunk st] }
    else
      { content := "", tokens := 0, files := [], hierarchy := [], out := st.out ++ [closeChunk st] }
  else st

/-- File-header branch (code_chunking.py, lines 893-898): a header line is
appended only when the record's file is new to the buffer and the buffer
is non-empty. -/
def packHeader (st : PackState) (chunk : CodeChunk) : PackState :=
  if chunk.file_path ∉ st.files ∨ st.content = "" then
    let header := "\n# FILE: " ++ basename chunk.file_path ++ "\n"
    if st.content ≠ "" then
      { st with content := st.content ++ header,
                tokens := st.tokens + estimate_tokens header }
    else st
  else st

/-- Append branch (code_chunking.py, lines 900-904): record content plus a
newline, one extra counted token for the newline. -/
def packAppend (st : PackState) (chunk : CodeChunk) : PackState :=
  { st with content := st.content ++ chunk.content ++ "\n",
            tokens := st.tokens + chunk.est_tokens + 1,
            files := addFile st.files chunk.file_path,
            hierarchy := st.hierarchy ++ [chunk] }

/-- One iteration of `for chunk in sorted_chunks`. -/
def packStep (max_tokens overlap_tokens : Nat) (st : PackState) (chunk : CodeChunk) :
    PackState :=
  packAppend (packHeader (packClose max_tokens overlap_tokens st chunk) chunk) chunk

/-- Final flush (code_chunking.py, lines 906-915). -/
def packFinalize (st : PackState) : List CodeChunk :=
  if st.content ≠ "" then st.out ++ [closeChunk st] else st.out

/-- `CodeChunkingManager.create_overlapping_chunks` (code_chunking.py,
lines 826-917).  `overlap_tokens` stands for `int(max_tokens * overlap_ratio)`;
for the default ratio 0.2 this is `max_tokens / 5` (see the float note in
the file header).  The `max_tokens is None` default re-reads the
environment, which callers here model by passing `get_max_input_tokens L`. -/
def create_overlapping_chunks (chunks : List CodeChunk) (max_tokens overlap_tokens : Nat) :
    List CodeChunk :=
  if chunks = [] then []
  else
    packFinalize ((List.insertionSort chunkKeyLE chunks).foldl
      (packStep max_tokens overlap_tokens) ⟨"", 0, [], [], []⟩)

/-- One element of the list returned by `chunk_codebase`
(code_chunking.py, lines 949-957). -/
structure ChunkDict where
  chunk_id : Nat
  content : String
  token_count : Nat
  files : List String
deriving DecidableEq, Repr

/-- `chunk_codebase(base_dir, file_paths, file_contents)` (code_chunking.py,
lines 920-959), with the call-time context length `L` explicit. -/
def chunk_codebase (L : Nat) (base_dir : String) (file_paths : List String)
    (file_contents : List (String × String)) : List ChunkDict :=
  let all_chunks := chunk_files base_dir file_paths file_contents
  let current_max_input_tokens := get_max_input_tokens L
  let combined := create_overlapping_chunks all_chunks current_max_input_tokens
    (current_max_input_tokens / 5)
  (enumFrom 0 combined).map fun ic =>
    { chunk_id := ic.1, content := ic.2.content, token_count := ic.2.est_tokens,
      files := strSplitSemi ic.2.file_path }

/-- One element of the list returned by `process_code_for_llm`
(chunk_processor.py, lines 93-103).  The `token_utilization` percentage
string, the `level` tag (always absent from chunk dicts, hence the literal
"unknown") and `overlap_percentage` (always 0) are presentation-only
fields omitted from the embedding. -/
structure PreparedPrompt where
  prompt : String
  chunk_id : Nat
  files : List String
  token_count : Nat
  estimated_tokens : Nat
  estimated_response_tokens : Nat
deriving DecidableEq, Repr

/-- `process_code_for_llm` (chunk_processor.py, lines 28-115):
re-derive the budget from the call-time context length, chunk the
codebase, and keep exactly the chunks whose token count fits within
`max_input_tokens - prompt_token_estimate`, substituting their content
into the template. -/
def process_code_for_llm (L : Nat) (base_dir : String) (file_paths : List String)
    (file_contents : List (String × String)) (prompt_template : String)
    (prompt_token_estimate : Nat) : List PreparedPrompt :=
  let max_input_tokens := get_max_input_tokens L
  let effective_max_tokens : Int := (max_input_tokens : Int) - (prompt_token_estimate : Int)
  let chunks := chunk_codebase L base_dir file_paths file_contents
  chunks.filterMap fun c =>
    if (c.token_count : Int) ≤ effective_max_tokens then
      some { prompt := strReplace prompt_template "{code}" c.content,
             chunk_id := c.chunk_id,
             files := c.files,
             token_count := c.token_count,
             estimated_tokens := c.token_count + prompt_token_estimate,
             estimated_response_tokens := reserved_response_tokens L }
    else none

/-- `connection_keywords` (chunk_processor.py, lines 268-271). -/
def connection_keywords : List String :=
  ["connection", "timeout", "peer closed", "reset",
   "eof", "broken pipe", "socket", "network", "incomplete"]

/-- `any(keyword in str(e).lower() for keyword in connection_keywords)`. -/
def isConnectionError (msg : String) : Bool :=
  connection_keywords.any fun kw => strContains (strLower msg) kw

/-- One element of the list returned by `batch_process_chunks`
(chunk_processor.py, lines 246-254 and 294-302).  `Option` fields model
dictionary keys that are present only on one of the two entry shapes; the
`token_utilization` display string is omitted as presentation-only. -/
structure BatchResult where
  chunk_id : Nat
  files : List String
  token_count : Nat
  estimated_tokens : Nat
  response : Option String
  estimated_response_tokens : Option Nat
  error : Option String
  retries : Option Nat
deriving DecidableEq, Repr

/-- The success entry (chunk_processor.py, lines 246-254): carries the
response and a response-length estimate, and no `error`/`retries` keys. -/
def successResult (p : PreparedPrompt) (resp : String) : BatchResult :=
  { chunk_id := p.chunk_id, files := p.files, token_count := p.token_count,
    estimated_tokens := p.estimated_tokens, response := some resp,
    estimated_response_tokens := some (resp.length / 4),
    error := none, retries := none }

/-- The failure entry (chunk_processor.py, lines 294-302): carries the
error text and the retry counter, and no `response` key. -/
def failureResult (p : PreparedPrompt) (e : String) (retry_count : Nat) : BatchResult :=
  { chunk_id := p.chunk_id, files := p.files, token_count := p.token_count,
    estimated_tokens := p.estimated_tokens, response := none,
    estimated_response_tokens := none, error := some e, retries := some retry_count }

/-- The `while retry_count <= max_retries and not success` loop of
`batch_process_chunks` (chunk_processor.py, lines 226-303) for one chunk.
The generation function is an arbitrary deterministic stateful callable,
modelled by indexing its calls with a global counter; the pair returned is
(result entry, counter after this chunk).  The recursion is on
`fuel = max_retries - retry_count`, so `fuel > 0` is exactly the source's
`retry_count < max_retries` retry condition; non-connection errors and
exhausted retries fall through to the failure entry. -/
def attemptLoop (gen : Nat → String → Except String String) (p : PreparedPrompt) :
    Nat → Nat → Nat → BatchResult × Nat
  | counter, retry_count, 0 =>
    match gen counter p.prompt with
    | Except.ok resp => (successResult p resp, counter + 1)
    | Except.error e => (failureResult p e retry_count, counter + 1)
  | counter, retry_count, fuel + 1 =>
    match gen counter p.prompt with
    | Except.ok resp => (successResult p resp, counter + 1)
    | Except.error e =>
      if isConnectionError e then
        attemptLoop gen p (counter + 1) (retry_count + 1) fuel
      else (failureResult p e retry_count, counter + 1)

/-- The `for i, prompt_data in enumerate(prepared_prompts)` loop, threading
the call counter. -/
def batchGo (gen : Nat → String → Except String String) (max_retries : Nat) :
    List PreparedPrompt → Nat → List BatchResult
  | [], _ => []
  | p :: ps, counter =>
    let rc := attemptLoop gen p counter 0 max_retries
    rc.1 :: batchGo gen max_retries ps rc.2

/-- `batch_process_chunks(prepared_prompts, call_llm_func, ..., max_retries, ...)`
(chunk_processor.py, lines 163-310), sequential reference behaviour. -/
def batch_process_chunks (gen : Nat → String → Except String String)
    (max_retries : Nat) (prepared_prompts : List PreparedPrompt) : List BatchResult :=
  batchGo gen max_retries prepared_prompts 0

/-! ### Concrete inputs used by the counterexamples and failing-input
evaluations. -/

/-- A six-token record on file `f`, used to exhibit the budget violation. -/
def budgetRec (i : Nat) : CodeChunk :=
  mkCodeChunk "w w w w w w" "f" "text" 2 i i "file"

/-- A two-token record on file `f`, used to exhibit the overlap violation. -/
def tinyRec (i : Nat) : CodeChunk :=
  mkCodeChunk "w w" "f" "text" 2 i i "file"

/-- Five two-token records. -/
def tinyRecs : List CodeChunk :=
  [tinyRec 0, tinyRec 1, tinyRec 2, tinyRec 3, tinyRec 4]

/-- A generation function that fails with a connection-reset error on its
first two calls and succeeds afterwards. -/
def genResetTwice : Nat → String → Except String String := fun i _ =>
  if i < 2 then Except.error "Connection reset by peer" else Except.ok "OK"

/-- An always-succeeding generation function. -/
def genOk : Nat → String → Except String String := fun _ _ => Except.ok "R"

/-- A sample prepared prompt. -/
def samplePrompt : PreparedPrompt :=
  { prompt := "P", chunk_id := 0, files := ["f"], token_count := 5,
    estimated_tokens := 205, estimated_response_tokens := 1638 }






/-- A string containing no `;`.  The packer joins contributing file paths
with `;` and `chunk_codebase` splits them back, so `files` reproduces the
path set exactly when the paths are semicolon-free. -/
def semiFree (s : String) : Prop :=
  ';' ∉ s.data

instance (s : String) : Decidable (semiFree s) :=
  inferInstanceAs (Decidable (';' ∉ s.data))

/-- Language tag of a file's level-2 record: the mapped language, or
"text" for unmapped extensions. -/
def langTagOf (f : String) : String :=
  (getLang f).getD "text"

/-! ## Helper lemmas -/

theorem addFile_mem (fs : List String) (f x : String) :
    x ∈ addFile fs f ↔ x ∈ fs ∨ x = f := by
  unfold addFile
  by_cases h : f ∈ fs
  · simp only [if_pos h]
    constructor
    · exact fun hx => Or.inl hx
    · rintro (hx | rfl) <;> [exact hx; exact h]
  · simp [if_neg h]

theorem enumFrom_map_snd (n : Nat) (l : List α) :
    (enumFrom n l).map Prod.snd = l := by
  induction l generalizing n with
  | nil => rfl
  | cons x xs ih => simp [enumFrom, ih]

theorem mem_enumFrom_snd {n : Nat} {l : List α} {x : α} :
    (∃ p ∈ enumFrom n l, p.2 = x) ↔ x ∈ l := by
  constructor
  · rintro ⟨p, hp, rfl⟩
    have := enumFrom_map_snd n l
    rw [← this]
    exact List.mem_map_of_mem Prod.snd hp
  · intro hx
    have : x ∈ (enumFrom n l).map Prod.snd := by rw [enumFrom_map_snd]; exact hx
    rcases List.mem_map.mp this with ⟨p, hp, hpx⟩
    exact ⟨p, hp, hpx⟩

/-! ## Claim C1 -/

/-- Claim C1: "every PackedChunk returned by chunk_codebase /
create_overlapping_chunks has token_count ≤ max_input_tokens, except a
chunk consisting of a single record whose own token estimate alone exceeds
max_input_tokens."  This fails on the code: with two six-token records and
a budget of 10 (overlap budget 2, the default ratio), the second emitted
chunk counts 12 tokens although no single record exceeds the budget — the
close branch never resets the buffer when the overlap budget is positive. -/
theorem c1_budget_violated :
    (∃ c ∈ create_overlapping_chunks [budgetRec 0, budgetRec 1] 10 2,
        10 < c.est_tokens) ∧
      ∀ r ∈ [budgetRec 0, budgetRec 1], r.est_tokens ≤ 10 := by
  decide

/-! ## Claim C2 -/

/-- Claim C2: the next buffer is claimed to be seeded with at most
`overlap_ratio · max_tokens` (± one record) of carried-over content.  On
the code, each closed buffer is carried over in full: with five two-token
records and budget 10 (overlap budget 2), the second chunk starts with the
entire six-token first chunk — more than the two-token overlap budget plus
one two-token record — because the computed seed (`overlapSeed`, here the
single last record) is discarded and the buffer is never reset. -/
theorem c2_overlap_violated :
    (create_overlapping_chunks tinyRecs 10 2).map CodeChunk.content
        = ["w w\nw w\nw w\n", "w w\nw w\nw w\nw w\n", "w w\nw w\nw w\nw w\nw w\n"] ∧
      estimate_tokens "w w\nw w\nw w\n" = 6 ∧
      overlapSeed 2 [tinyRec 0, tinyRec 1, tinyRec 2] = [tinyRec 2] ∧
      2 + 2 < 6 ∧
      ∀ r ∈ tinyRecs, r.est_tokens = 2 := by
  decide

/-! ## Claim C5 -/

/-- Claim C5 counterexample: with a generation function failing twice with
a connection-reset error and `max_retries = 3`, the single result entry
carries the response but has no `retries` key at all — refuting the
claimed `retries = 2` field on the success entry. -/
theorem c5_success_retries_counterexample :
    (batch_process_chunks genResetTwice 3 [samplePrompt]).length = 1 ∧
      ∀ r ∈ batch_process_chunks genResetTwice 3 [samplePrompt],
        r.response = some "OK" ∧ r.retries = none := by
  decide

/-- Claim C5 (amended): in the two-connection-failures-then-success
scenario with `max_retries = 3`, the result entry for the chunk is the
success entry carrying the third call's response; success entries carry no
`retries` key (the retry counter appears only on failure entries).  The
third call (index 2) is the succeeding one, witnessing that two retries
were performed. -/
theorem c5_success_after_retries :
    batch_process_chunks genResetTwice 3 [samplePrompt]
        = [successResult samplePrompt "OK"] ∧
      genResetTwice 0 "P" = Except.error "Connection reset by peer" ∧
      genResetTwice 1 "P" = Except.error "Connection reset by peer" ∧
      genResetTwice 2 "P" = Except.ok "OK" ∧
      (successResult samplePrompt "OK").retries = none :=
  ⟨by decide, rfl, rfl, rfl, rfl⟩

/-! ## Claim C6 -/

/-- Claim C6: the budget pair is `(0.8·L, 0.2·L)`, recomputed from the
call-time context length `L` (modelled by the explicit `L` parameter, so
every call recomputes): `L = 128000` gives `(102400, 25600)` and
`L = 8192` gives `(6553, 1638)`, within the claim's ±1 rounding tolerance
of its stated `1639`. -/
theorem c6_budget_scaling :
    get_max_input_tokens 128000 = 102400 ∧
      reserved_response_tokens 128000 = 25600 ∧
      get_max_input_tokens 8192 = 6553 ∧
      reserved_response_tokens 8192 = 1638 ∧
      Nat.dist (reserved_response_tokens 8192) 1639 ≤ 1 := by
  decide

/-! ## Claim C8 -/

/-- Claim C8: `chunk_codebase` is deterministic — two calls with identical
inputs and the same configured context length return identical chunk lists.
The embedding is a pure function of `(L, base_dir, file_paths,
file_contents)`; the only run-to-run-varying detail of CPython, the
iteration order of the `current_files` set, is fixed within one process
(identical insertion sequences of equal strings iterate identically) and
is modelled as insertion order. -/
theorem c8_determinism (L L' : Nat) (b b' : String) (ps ps' : List String)
    (cts cts' : List (String × String))
    (hL : L = L') (hb : b = b') (hps : ps = ps') (hcts : cts = cts') :
    chunk_codebase L b ps cts = chunk_codebase L' b' ps' cts' := by
  subst hL hb hps hcts
  rfl

/-- Witness for C8 at a concrete input. -/
theorem c8_determinism_witness :
    chunk_codebase 8192 "/b" ["d/a.txt"] [("d/a.txt", "x")]
      = chunk_codebase 8192 "/b" ["d/a.txt"] [("d/a.txt", "x")] :=
  c8_determinism 8192 8192 "/b" "/b" ["d/a.txt"] ["d/a.txt"]
    [("d/a.txt", "x")] [("d/a.txt", "x")] rfl rfl rfl rfl

/-! ## Claim C10 -/

theorem packClose_out (mt ot : Nat) (st : PackState) (r : CodeChunk) :
    ∀ c ∈ (packClose mt ot st r).out, c ∈ st.out ∨ c = closeChunk st := by
  unfold packClose
  split_ifs with h1 h2 <;> intro c hc
  · rcases List.mem_append.mp hc with h | h
    · exact Or.inl h
    · exact Or.inr (List.mem_singleton.mp h)
  · rcases List.mem_append.mp hc with h | h
    · exact Or.inl h
    · exact Or.inr (List.mem_singleton.mp h)
  · exact Or.inl hc

theorem packHeader_out (st : PackState) (r : CodeChunk) :
    (packHeader st r).out = st.out := by
  unfold packHeader
  split_ifs <;> rfl

theorem packAppend_out (st : PackState) (r : CodeChunk) :
    (packAppend st r).out = st.out := rfl

theorem packStep_out (mt ot : Nat) (st : PackState) (r : CodeChunk) :
    ∀ c ∈ (packStep mt ot st r).out, c ∈ st.out ∨ c = closeChunk st := by
  intro c hc
  have : c ∈ (packClose mt ot st r).out := by
    rw [packStep, packAppend_out, packHeader_out] at hc
    exact hc
  exact packClose_out mt ot st r c this

theorem closeChunk_est (st : PackState) :
    (closeChunk st).est_tokens = estimate_tokens (closeChunk st).content := rfl

theorem packRun_est (mt ot : Nat) :
    ∀ (l : List CodeChunk) (st : PackState),
      (∀ c ∈ st.out, c.est_tokens = estimate_tokens c.content) →
      ∀ c ∈ packFinalize (l.foldl (packStep mt ot) st),
        c.est_tokens = estimate_tokens c.content := by
  intro l
  induction l with
  | nil =>
    intro st hout c hc
    unfold packFinalize at hc
    split_ifs at hc
    · rcases List.mem_append.mp hc with h | h
      · exact hout c h
      · rw [List.mem_singleton.mp h]
        rfl
    · exact hout c hc
  | cons r rs ih =>
    intro st hout c hc
    refine ih (packStep mt ot st r) ?_ c hc
    intro d hd
    rcases packStep_out mt ot st r d hd with h | h
    · exact hout d h
    · rw [h]
      rfl

theorem create_overlapping_est (l : List CodeChunk) (mt ot : Nat) :
    ∀ c ∈ create_overlapping_chunks l mt ot,
      c.est_tokens = estimate_tokens c.content := by
  intro c hc
  unfold create_overlapping_chunks at hc
  split_ifs at hc
  · exact absurd hc (List.not_mem_nil c)
  · exact packRun_est mt ot _ _ (by intro d hd; exact absurd hd (List.not_mem_nil d)) c hc

/-- Claim C10: each chunk dictionary's `token_count` equals
`estimate_tokens` of its `content` — the count is recomputed by
`CodeChunk.__init__` from the full packed content (headers and joining
newlines included), not summed from the constituent records. -/
theorem c10_token_count_recomputed (L : Nat) (b : String) (ps : List String)
    (cts : List (String × String)) :
    ∀ d ∈ chunk_codebase L b ps cts, d.token_count = estimate_tokens d.content := by
  intro d hd
  unfold chunk_codebase at hd
  rcases List.mem_map.mp hd with ⟨ic, hic, rfl⟩
  have h2 : ic.2 ∈ create_overlapping_chunks (chunk_files b ps cts)
      (get_max_input_tokens L) (get_max_input_tokens L / 5) :=
    mem_enumFrom_snd.mp ⟨ic, hic, rfl⟩
  exact create_overlapping_est _ _ _ ic.2 h2

/-- Witness for C10 at a concrete input. -/
theorem c10_witness :
    ∃ d ∈ chunk_codebase 8192 "/b" ["d/a.txt"] [("d/a.txt", "x")],
      d.token_count = estimate_tokens d.content := by
  rcases hm : chunk_codebase 8192 "/b" ["d/a.txt"] [("d/a.txt", "x")] with _ | ⟨d, rest⟩
  · exact absurd hm (by decide)
  · refine ⟨d, ?_, ?_⟩
    · exact List.mem_cons_self d rest
    · exact c10_token_count_recomputed 8192 "/b" ["d/a.txt"] [("d/a.txt", "x")] d
        (by rw [hm]; exact List.mem_cons_self d rest)

/-! ## Claim C9 -/

theorem attemptLoop_spec (gen : Nat → String → Except String String)
    (p : PreparedPrompt) :
    ∀ (fuel counter rc : Nat),
      (attemptLoop gen p counter rc fuel).1.chunk_id = p.chunk_id ∧
      (attemptLoop gen p counter rc fuel).1.files = p.files ∧
      ((∃ s, (attemptLoop gen p counter rc fuel).1 = successResult p s) ∨
       (∃ e k, (attemptLoop gen p counter rc fuel).1 = failureResult p e k ∧
          k ≤ rc + fuel)) := by
  intro fuel
  induction fuel with
  | zero =>
    intro counter rc
    unfold attemptLoop
    rcases gen counter p.prompt with e | s
    · exact ⟨rfl, rfl, Or.inr ⟨e, rc, rfl, Nat.le_refl _⟩⟩
    · exact ⟨rfl, rfl, Or.inl ⟨s, rfl⟩⟩
  | succ f ih =>
    intro counter rc
    unfold attemptLoop
    rcases gen counter p.prompt with e | s
    · by_cases hc : isConnectionError e = true
      · simp only [hc, if_true]
        rcases ih (counter + 1) (rc + 1) with ⟨h1, h2, h3⟩
        refine ⟨h1, h2, ?_⟩
        rcases h3 with h | ⟨e', k, hk, hle⟩
        · exact Or.inl h
        · exact Or.inr ⟨e', k, hk, by omega⟩
      · simp only [hc, if_false]
        exact ⟨rfl, rfl, Or.inr ⟨e, rc, rfl, by omega⟩⟩
    · exact ⟨rfl, rfl, Or.inl ⟨s, rfl⟩⟩

theorem batchGo_length (gen : Nat → String → Except String String) (mr : Nat) :
    ∀ (ps : List PreparedPrompt) (counter : Nat),
      (batchGo gen mr ps counter).length = ps.length := by
  intro ps
  induction ps with
  | nil => intro counter; rfl
  | cons p rest ih =>
    intro counter
    unfold batchGo
    simp [ih]

theorem batchGo_get (gen : Nat → String → Except String String) (mr : Nat) :
    ∀ (ps : List PreparedPrompt) (counter i : Nat) (p : PreparedPrompt)
      (r : BatchResult),
      ps[i]? = some p → (batchGo gen mr ps counter)[i]? = some r →
      r.chunk_id = p.chunk_id ∧ r.files = p.files ∧
        ((r.error = none ∧ r.retries = none ∧ ∃ s, r.response = some s) ∨
         (r.response = none ∧ ∃ e k, r.error = some e ∧ r.retries = some k ∧ k ≤ mr)) := by
  intro ps
  induction ps with
  | nil =>
    intro counter i p r hp _
    simp at hp
  | cons q rest ih =>
    intro counter i p r hp hr
    cases i with
    | zero =>
      simp only [List.getElem?_cons_zero, Option.some.injEq] at hp
      unfold batchGo at hr
      simp only [List.getElem?_cons_zero, Option.some.injEq] at hr
      rcases attemptLoop_spec gen q mr counter 0 with ⟨h1, h2, h3⟩
      rw [← hp, ← hr]
      refine ⟨h1, h2, ?_⟩
      rcases h3 with ⟨s, hs⟩ | ⟨e, k, hk, hle⟩
      · rw [hs]
        exact Or.inl ⟨rfl, rfl, s, rfl⟩
      · rw [hk]
        exact Or.inr ⟨rfl, e, k, rfl, rfl, by omega⟩
    | succ j =>
      simp only [List.getElem?_cons_succ] at hp
      unfold batchGo at hr
      simp only [List.getElem?_cons_succ] at hr
      exact ih _ j p r hp hr

/-- Claim C9: `batch_process_chunks` returns exactly one result per
prepared prompt, positionally matched to the input order; each entry is a
success entry (response present, no error/retries keys) or a failure entry
(error present, retry counter at most `max_retries`), and a failing chunk
never prevents results for the remaining chunks (every position has an
entry regardless of other chunks' outcomes). -/
theorem c9_batch_results (gen : Nat → String → Except String String)
    (mr : Nat) (prompts : List PreparedPrompt) :
    (batch_process_chunks gen mr prompts).length = prompts.length ∧
      ∀ (i : Nat) (p : PreparedPrompt) (r : BatchResult),
        prompts[i]? = some p →
        (batch_process_chunks gen mr prompts)[i]? = some r →
        r.chunk_id = p.chunk_id ∧ r.files = p.files ∧
          ((r.error = none ∧ r.retries = none ∧ ∃ s, r.response = some s) ∨
           (r.response = none ∧
             ∃ e k, r.error = some e ∧ r.retries = some k ∧ k ≤ mr)) :=
  ⟨batchGo_length gen mr prompts 0,
   fun i p r hp hr => batchGo_get gen mr prompts 0 i p r hp hr⟩

/-- Witness for C9: an always-succeeding generation function over one
prompt yields one entry, whose identification fields the theorem pins to
the prompt's. -/
theorem c9_witness :
    (batch_process_chunks genOk 3 [samplePrompt]).length = 1 ∧
      (successResult samplePrompt "R").chunk_id = samplePrompt.chunk_id := by
  have h := c9_batch_results genOk 3 [samplePrompt]
  refine ⟨h.1, ?_⟩
  have h2 := h.2 0 samplePrompt (successResult samplePrompt "R") rfl (by decide)
  exact h2.1

/-! ## Claim C7 -/

theorem filterMap_if_mem {α β : Type} (P : α → Prop) [DecidablePred P] (g : α → β)
    (l : List α) (b : β) :
    (b ∈ l.filterMap fun a => if P a then some (g a) else none) ↔
      ∃ a ∈ l, P a ∧ b = g a := by
  rw [List.mem_filterMap]
  constructor
  · rintro ⟨a, ha, hfa⟩
    by_cases hP : P a
    · rw [if_pos hP] at hfa
      exact ⟨a, ha, hP, (Option.some.inj hfa).symm⟩
    · rw [if_neg hP] at hfa
      exact absurd hfa (Option.noConfusion)
  · rintro ⟨a, ha, hP, rfl⟩
    exact ⟨a, ha, if_pos hP⟩

theorem filterMap_if_length {α β : Type} (P : α → Prop) [DecidablePred P] (g : α → β) :
    ∀ l : List α,
      (l.filterMap fun a => if P a then some (g a) else none).length =
        (l.filter fun a => decide (P a)).length := by
  intro l
  induction l with
  | nil => rfl
  | cons x xs ih =>
    by_cases hP : P x
    · simp [List.filterMap_cons, List.filter_cons, hP, ih]
    · simp [List.filterMap_cons, List.filter_cons, hP, ih]

theorem process_code_for_llm_eq (L : Nat) (b : String) (ps : List String)
    (cts : List (String × String)) (template : String) (est : Nat) :
    process_code_for_llm L b ps cts template est =
      (chunk_codebase L b ps cts).filterMap fun c =>
        if (c.token_count : Int) ≤ (get_max_input_tokens L : Int) - (est : Int) then
          some { prompt := strReplace template "{code}" c.content,
                 chunk_id := c.chunk_id,
                 files := c.files,
                 token_count := c.token_count,
                 estimated_tokens := c.token_count + est,
                 estimated_response_tokens := reserved_response_tokens L }
        else none := rfl

/-- Claim C7: `process_code_for_llm` keeps exactly the chunks whose
`token_count` fits within `max_input_tokens - prompt_token_estimate`,
producing one prompt each with the template's `{code}` placeholder
replaced by the chunk content; oversized chunks are the only ones skipped
(the output length equals the number of fitting chunks, each fitting chunk
appears, and every output entry comes from a fitting chunk). -/
theorem c7_prompt_preparation (L : Nat) (b : String) (ps : List String)
    (cts : List (String × String)) (template : String) (est : Nat) :
    (∀ c ∈ chunk_codebase L b ps cts,
        (c.token_count : Int) ≤ (get_max_input_tokens L : Int) - (est : Int) →
        ∃ p ∈ process_code_for_llm L b ps cts template est,
          p.chunk_id = c.chunk_id ∧ p.files = c.files ∧
            p.token_count = c.token_count ∧
            p.prompt = strReplace template "{code}" c.content) ∧
      (∀ p ∈ process_code_for_llm L b ps cts template est,
        ∃ c ∈ chunk_codebase L b ps cts,
          (c.token_count : Int) ≤ (get_max_input_tokens L : Int) - (est : Int) ∧
            p.chunk_id = c.chunk_id ∧
            p.prompt = strReplace template "{code}" c.content) ∧
      (process_code_for_llm L b ps cts template est).length =
        ((chunk_codebase L b ps cts).filter fun c =>
          decide ((c.token_count : Int) ≤
            (get_max_input_tokens L : Int) - (est : Int))).length := by
  refine ⟨?_, ?_, ?_⟩
  · intro c hc hfit
    rw [process_code_for_llm_eq]
    refine ⟨_, (filterMap_if_mem _ _ _ _).mpr ⟨c, hc, hfit, rfl⟩, rfl, rfl, rfl, rfl⟩
  · intro p hp
    rw [process_code_for_llm_eq] at hp
    rcases (filterMap_if_mem _ _ _ _).mp hp with ⟨c, hc, hfit, rfl⟩
    exact ⟨c, hc, hfit, rfl, rfl⟩
  · rw [process_code_for_llm_eq]
    exact filterMap_if_length _ _ _

/-- Witness for C7: at the concrete one-file input every produced prompt
substitutes the packed content into the template. -/
theorem c7_witness :
    ∃ p ∈ process_code_for_llm 8192 "/b" ["d/a.txt"] [("d/a.txt", "x")]
        "before {code} after" 200,
      p.chunk_id = 0 := by
  have h := (c7_prompt_preparation 8192 "/b" ["d/a.txt"] [("d/a.txt", "x")]
    "before {code} after" 200).1
  rcases hm : chunk_codebase 8192 "/b" ["d/a.txt"] [("d/a.txt", "x")] with _ | ⟨c, rest⟩
  · exact absurd hm (by decide)
  · have hc : c ∈ chunk_codebase 8192 "/b" ["d/a.txt"] [("d/a.txt", "x")] := by
      rw [hm]
      exact List.mem_cons_self c rest
    have hid : c.chunk_id = 0 := by
      have : c :: rest = chunk_codebase 8192 "/b" ["d/a.txt"] [("d/a.txt", "x")] := hm.symm
      have hall : (chunk_codebase 8192 "/b" ["d/a.txt"]
          [("d/a.txt", "x")]).length = 1 := by decide
      rw [← this] at hall
      have h0 : chunk_codebase 8192 "/b" ["d/a.txt"] [("d/a.txt", "x")]
          = c :: rest := hm
      have : (chunk_codebase 8192 "/b" ["d/a.txt"] [("d/a.txt", "x")]).map
          ChunkDict.chunk_id = [0] := by decide
      rw [h0] at this
      simpa using congrArg List.head? this
    have hfit : (c.token_count : Int) ≤
        (get_max_input_tokens 8192 : Int) - (200 : Int) := by
      have : (chunk_codebase 8192 "/b" ["d/a.txt"] [("d/a.txt", "x")]).map
          ChunkDict.token_count = [18] := by decide
      rw [hm] at this
      have hct : c.token_count = 18 := by simpa using congrArg List.head? this
      rw [hct]
      decide
    rcases h c hc hfit with ⟨p, hp, hpid, _⟩
    exact ⟨p, hp, by rw [hpid, hid]⟩

/-! ## String facts for the files-coverage claims -/

theorem str_data_append (a b : String) : (a ++ b).data = a.data ++ b.data := rfl

theorem str_eq_empty_iff (a : String) : a = "" ↔ a.data = [] :=
  ⟨fun h => congrArg String.data h, fun h => String.ext h⟩

theorem append_ne_empty_right (a b : String) (h : b ≠ "") : a ++ b ≠ "" := by
  intro hab
  rw [str_eq_empty_iff, str_data_append, List.append_eq_nil] at hab
  exact h ((str_eq_empty_iff b).mpr hab.2)

theorem splitOnChar_ne_nil (sep : Char) : ∀ l : List Char, splitOnChar sep l ≠ []
  | [] => by simp [splitOnChar]
  | c :: cs => by
    unfold splitOnChar
    rcases h : splitOnChar sep cs with _ | ⟨hd, tl⟩
    · simp
    · split_ifs <;> simp

theorem splitOnChar_cons (sep c : Char) (cs : List Char) :
    splitOnChar sep (c :: cs) =
      match splitOnChar sep cs with
      | [] => [[c]]
      | h :: t => if c = sep then [] :: h :: t else (c :: h) :: t := rfl

theorem splitOnChar_sepFree (sep : Char) :
    ∀ xs : List Char, sep ∉ xs → splitOnChar sep xs = [xs] := by
  intro xs
  induction xs with
  | nil => intro _; rfl
  | cons c cs ih =>
    intro h
    have hc : c ≠ sep := fun hcs => h (hcs ▸ List.mem_cons_self c cs)
    have hcs : sep ∉ cs := fun hm => h (List.mem_cons_of_mem c hm)
    rw [splitOnChar_cons, ih hcs]
    simp [hc]

theorem splitOnChar_append (sep : Char) :
    ∀ (xs rest : List Char), sep ∉ xs →
      splitOnChar sep (xs ++ sep :: rest) = xs :: splitOnChar sep rest := by
  intro xs
  induction xs with
  | nil =>
    intro rest _
    show splitOnChar sep (sep :: rest) = [] :: splitOnChar sep rest
    rw [splitOnChar_cons]
    rcases h : splitOnChar sep rest with _ | ⟨hd, tl⟩
    · exact absurd h (splitOnChar_ne_nil sep rest)
    · simp
  | cons c cs ih =>
    intro rest h
    have hc : c ≠ sep := fun hcs => h (hcs ▸ List.mem_cons_self c cs)
    have hcs : sep ∉ cs := fun hm => h (List.mem_cons_of_mem c hm)
    show splitOnChar sep (c :: (cs ++ sep :: rest)) = (c :: cs) :: splitOnChar sep rest
    rw [splitOnChar_cons, ih rest hcs]
    simp [hc]

theorem joinSep_data_cons (sep : Char) (s : String) (s2 : String) (rest : List String) :
    (joinSep sep (s :: s2 :: rest)).data = s.data ++ sep :: (joinSep sep (s2 :: rest)).data := by
  show (s ++ String.mk [sep] ++ joinSep sep (s2 :: rest)).data = _
  rw [str_data_append, str_data_append]
  simp

theorem strSplitSemi_joinSep :
    ∀ fls : List String, fls ≠ [] → (∀ s ∈ fls, semiFree s) →
      strSplitSemi (joinSep ';' fls) = fls := by
  intro fls
  induction fls with
  | nil => intro h _; exact absurd rfl h
  | cons s rest ih =>
    intro _ hsf
    rcases rest with _ | ⟨s2, rest2⟩
    · show strSplitSemi s = [s]
      unfold strSplitSemi
      rw [splitOnChar_sepFree ';' s.data (hsf s (List.mem_cons_self s []))]
      rfl
    · have hs : semiFree s := hsf s (List.mem_cons_self s _)
      have hrest : ∀ t ∈ s2 :: rest2, semiFree t := fun t ht =>
        hsf t (List.mem_cons_of_mem s ht)
      unfold strSplitSemi
      rw [joinSep_data_cons, splitOnChar_append ';' s.data _ hs]
      have : (splitOnChar ';' (joinSep ';' (s2 :: rest2)).data).map String.mk
          = s2 :: rest2 := ih (by simp) hrest
      simp only [List.map_cons, this]

/-! ## Packing-state lemmas -/

theorem append_ne_empty_right' (a b : String) (h : b ≠ "") : a ++ b ≠ "" :=
  append_ne_empty_right a b h

theorem addFile_ne_nil (fs : List String) (f : String) : addFile fs f ≠ [] := by
  unfold addFile
  split_ifs with h
  · intro hn
    rw [hn] at h
    exact List.not_mem_nil f h
  · simp

theorem packHeader_files (st : PackState) (r : CodeChunk) :
    (packHeader st r).files = st.files := by
  unfold packHeader
  split_ifs <;> rfl

theorem packAppend_files (st : PackState) (r : CodeChunk) :
    (packAppend st r).files = addFile st.files r.file_path := rfl

theorem packAppend_content_ne (st : PackState) (r : CodeChunk) :
    (packAppend st r).content ≠ "" := by
  show st.content ++ r.content ++ "\n" ≠ ""
  exact append_ne_empty_right _ "\n" (by decide)

theorem packClose_cases (mt ot : Nat) (st : PackState) (r : CodeChunk) :
    packClose mt ot st r = st ∨
      (st.content ≠ "" ∧
        (packClose mt ot st r = { st with out := st.out ++ [closeChunk st] } ∨
         packClose mt ot st r = ⟨"", 0, [], [], st.out ++ [closeChunk st]⟩)) := by
  unfold packClose
  split_ifs with h1 h2
  · exact Or.inr ⟨h1.2, Or.inl rfl⟩
  · exact Or.inr ⟨h1.2, Or.inr rfl⟩
  · exact Or.inl rfl

theorem exMemAppend {α : Type} {l1 l2 : List α} {P : α → Prop} :
    (∃ c ∈ l1 ++ l2, P c) ↔ (∃ c ∈ l1, P c) ∨ ∃ c ∈ l2, P c := by
  constructor
  · rintro ⟨c, hc, hP⟩
    rcases List.mem_append.mp hc with h | h
    · exact Or.inl ⟨c, h, hP⟩
    · exact Or.inr ⟨c, h, hP⟩
  · rintro (⟨c, hc, hP⟩ | ⟨c, hc, hP⟩)
    · exact ⟨c, List.mem_append.mpr (Or.inl hc), hP⟩
    · exact ⟨c, List.mem_append.mpr (Or.inr hc), hP⟩

theorem exMemSingleton {α : Type} {a : α} {P : α → Prop} :
    (∃ c ∈ [a], P c) ↔ P a := by
  simp

theorem exMemCons {α : Type} {a : α} {l : List α} {P : α → Prop} :
    (∃ c ∈ a :: l, P c) ↔ P a ∨ ∃ c ∈ l, P c := by
  constructor
  · rintro ⟨c, hc, hP⟩
    rcases List.mem_cons.mp hc with rfl | h
    · exact Or.inl hP
    · exact Or.inr ⟨c, h, hP⟩
  · rintro (hP | ⟨c, hc, hP⟩)
    · exact ⟨a, List.mem_cons_self a l, hP⟩
    · exact ⟨c, List.mem_cons_of_mem a hc, hP⟩


/-- Membership in the `files` lists across one packing run: a path
occurs in some emitted chunk's split file list exactly when it occurs in
an already-emitted chunk, in the current buffer's file set, or as the file
path of a remaining record.  The split/join round trip needs every path to
be semicolon-free. -/
theorem packRun_files_mem (mt ot : Nat) :
    ∀ (l : List CodeChunk) (st : PackState),
      (st.content = "" ↔ st.files = []) →
      (∀ s ∈ st.files, semiFree s) →
      (∀ r ∈ l, semiFree r.file_path) →
      ∀ x : String,
        (∃ c ∈ packFinalize (l.foldl (packStep mt ot) st),
            x ∈ strSplitSemi c.file_path) ↔
          ((∃ c ∈ st.out, x ∈ strSplitSemi c.file_path) ∨ x ∈ st.files ∨
            ∃ r ∈ l, r.file_path = x) := by
  intro l
  induction l with
  | nil =>
    intro st hiff hsf _ x
    rw [List.foldl_nil]
    unfold packFinalize
    by_cases hce : st.content = ""
    · rw [if_neg (by simpa using hce)]
      have hfe : st.files = [] := hiff.mp hce
      simp [hfe]
    · rw [if_pos hce]
      have hfne : st.files ≠ [] := fun hfe => hce (hiff.mpr hfe)
      have hsplit : strSplitSemi (closeChunk st).file_path = st.files :=
        strSplitSemi_joinSep st.files hfne hsf
      rw [exMemAppend, exMemSingleton, hsplit]
      simp
  | cons r rs ih =>
    intro st hiff hsf hl x
    rw [List.foldl_cons]
    have hl' : ∀ q ∈ rs, semiFree q.file_path := fun q hq => hl q (List.mem_cons_of_mem r hq)
    have hsemir : semiFree r.file_path := hl r (List.mem_cons_self r rs)
    rcases packClose_cases mt ot st r with hpc | ⟨hcne, hpc | hpc⟩
    · -- no close: the buffer keeps accumulating
      rw [packStep, hpc]
      rw [ih (packAppend (packHeader st r) r)
        (by
          constructor
          · intro h
            exact absurd h (packAppend_content_ne _ _)
          · intro h
            rw [packAppend_files, packHeader_files] at h
            exact absurd h (addFile_ne_nil _ _))
        (by
          intro s hs
          rw [packAppend_files, packHeader_files, addFile_mem] at hs
          rcases hs with hs | rfl
          · exact hsf s hs
          · exact hsemir)
        hl' x]
      rw [packAppend_out, packHeader_out, packAppend_files, packHeader_files]
      have haf : x ∈ addFile st.files r.file_path ↔ x ∈ st.files ∨ r.file_path = x := by
        rw [addFile_mem]
        exact or_congr_right eq_comm
      rw [haf, exMemCons]
      exact or_congr Iff.rfl or_assoc
    · -- close without reset (overlap_tokens > 0): buffer kept in full
      have hfne : st.files ≠ [] := fun hfe => hcne (hiff.mpr hfe)
      have hsplit : strSplitSemi (closeChunk st).file_path = st.files :=
        strSplitSemi_joinSep st.files hfne hsf
      rw [packStep, hpc]
      rw [ih (packAppend (packHeader { st with out := st.out ++ [closeChunk st] } r) r)
        (by
          constructor
          · intro h
            exact absurd h (packAppend_content_ne _ _)
          · intro h
            rw [packAppend_files, packHeader_files] at h
            exact absurd h (addFile_ne_nil _ _))
        (by
          intro s hs
          rw [packAppend_files, packHeader_files, addFile_mem] at hs
          rcases hs with hs | rfl
          · exact hsf s hs
          · exact hsemir)
        hl' x]
      rw [packAppend_out, packHeader_out, packAppend_files, packHeader_files]
      show ((∃ c ∈ st.out ++ [closeChunk st], x ∈ strSplitSemi c.file_path) ∨
          x ∈ addFile st.files r.file_path ∨ ∃ q ∈ rs, q.file_path = x) ↔ _
      have haf : x ∈ addFile st.files r.file_path ↔ x ∈ st.files ∨ r.file_path = x := by
        rw [addFile_mem]
        exact or_congr_right eq_comm
      rw [exMemAppend, exMemSingleton, hsplit, haf, exMemCons]
      generalize (∃ c ∈ st.out, x ∈ strSplitSemi c.file_path) = A
      generalize (x ∈ st.files) = B
      generalize (r.file_path = x) = C
      generalize (∃ q ∈ rs, q.file_path = x) = D
      tauto
    · -- close with reset (overlap_tokens == 0)
      have hfne : st.files ≠ [] := fun hfe => hcne (hiff.mpr hfe)
      have hsplit : strSplitSemi (closeChunk st).file_path = st.files :=
        strSplitSemi_joinSep st.files hfne hsf
      rw [packStep, hpc]
      rw [ih (packAppend (packHeader ⟨"", 0, [], [], st.out ++ [closeChunk st]⟩ r) r)
        (by
          constructor
          · intro h
            exact absurd h (packAppend_content_ne _ _)
          · intro h
            rw [packAppend_files, packHeader_files] at h
            exact absurd h (addFile_ne_nil _ _))
        (by
          intro s hs
          rw [packAppend_files, packHeader_files, addFile_mem] at hs
          rcases hs with hs | rfl
          · exact absurd hs (List.not_mem_nil s)
          · exact hsemir)
        hl' x]
      rw [packAppend_out, packHeader_out, packAppend_files, packHeader_files]
      show ((∃ c ∈ st.out ++ [closeChunk st], x ∈ strSplitSemi c.file_path) ∨
          x ∈ addFile [] r.file_path ∨ ∃ q ∈ rs, q.file_path = x) ↔ _
      have haf : x ∈ addFile [] r.file_path ↔ r.file_path = x := by
        rw [addFile_mem]
        simp [eq_comm]
      rw [exMemAppend, exMemSingleton, hsplit, haf, exMemCons]
      generalize (∃ c ∈ st.out, x ∈ strSplitSemi c.file_path) = A
      generalize (x ∈ st.files) = B
      generalize (r.file_path = x) = C
      generalize (∃ q ∈ rs, q.file_path = x) = D
      tauto

/-- Membership across `create_overlapping_chunks`: the union of the split
file lists of the emitted chunks is exactly the set of record file
paths. -/
theorem create_overlapping_mem (mt ot : Nat) (recs : List CodeChunk)
    (hsemi : ∀ r ∈ recs, semiFree r.file_path) (x : String) :
    (∃ c ∈ create_overlapping_chunks recs mt ot, x ∈ strSplitSemi c.file_path) ↔
      ∃ r ∈ recs, r.file_path = x := by
  unfold create_overlapping_chunks
  by_cases hne : recs = []
  · rw [if_pos hne]
    subst hne
    simp
  · rw [if_neg hne]
    have hperm := List.perm_insertionSort chunkKeyLE recs
    have hsorted : ∀ r ∈ List.insertionSort chunkKeyLE recs, semiFree r.file_path :=
      fun r hr => hsemi r (hperm.mem_iff.mp hr)
    rw [packRun_files_mem mt ot (List.insertionSort chunkKeyLE recs)
      ⟨"", 0, [], [], []⟩ (by simp) (by simp) hsorted x]
    simp only [List.not_mem_nil, false_and, exists_false, false_or,
      exists_prop]
    constructor
    · rintro ⟨r, hr, hx⟩
      exact ⟨r, hperm.mem_iff.mp hr, hx⟩
    · rintro ⟨r, hr, hx⟩
      exact ⟨r, hperm.mem_iff.mpr hr, hx⟩

/-- Membership of a path in the `files` fields of `chunk_codebase`'s
output is membership among the record file paths. -/
theorem chunk_codebase_files_mem (L : Nat) (b : String) (ps : List String)
    (cts : List (String × String))
    (hsemi : ∀ r ∈ chunk_files b ps cts, semiFree r.file_path) (x : String) :
    (∃ d ∈ chunk_codebase L b ps cts, x ∈ d.files) ↔
      ∃ r ∈ chunk_files b ps cts, r.file_path = x := by
  rw [← create_overlapping_mem (get_max_input_tokens L) (get_max_input_tokens L / 5)
    (chunk_files b ps cts) hsemi x]
  unfold chunk_codebase
  constructor
  · rintro ⟨d, hd, hx⟩
    rcases List.mem_map.mp hd with ⟨ic, hic, rfl⟩
    exact ⟨ic.2, mem_enumFrom_snd.mp ⟨ic, hic, rfl⟩, hx⟩
  · rintro ⟨c, hc, hx⟩
    rcases mem_enumFrom_snd.mpr hc with ⟨ic, hic, hic2⟩
    exact ⟨_, List.mem_map_of_mem _ hic, by rw [← hic2] at hx; exact hx⟩

theorem dedupAcc_mem : ∀ (l acc : List String) (x : String),
    x ∈ dedupAcc l acc ↔ x ∈ l ∨ x ∈ acc := by
  intro l
  induction l with
  | nil =>
    intro acc x
    simp [dedupAcc]
  | cons y ys ih =>
    intro acc x
    unfold dedupAcc
    by_cases hy : y ∈ acc
    · rw [if_pos hy, ih]
      simp only [List.mem_cons]
      constructor
      · rintro (h | h)
        · exact Or.inl (Or.inr h)
        · exact Or.inr h
      · rintro ((rfl | h) | h)
        · exact Or.inr hy
        · exact Or.inl h
        · exact Or.inr h
    · rw [if_neg hy, ih]
      simp only [List.mem_cons]
      tauto

theorem chunk_directory_path_mem (b : String) (ps : List String) (x : String) :
    (∃ c ∈ chunk_directory b ps, c.file_path = x) ↔ ∃ f ∈ ps, dirname f = x := by
  unfold chunk_directory
  constructor
  · rintro ⟨c, hc, rfl⟩
    rcases List.mem_map.mp hc with ⟨dir, hdir, rfl⟩
    have : dir ∈ ps.map dirname := by
      have := (dedupAcc_mem (ps.map dirname) [] dir).mp hdir
      simpa using this
    rcases List.mem_map.mp this with ⟨f, hf, rfl⟩
    exact ⟨f, hf, rfl⟩
  · rintro ⟨f, hf, rfl⟩
    have hdir : dirname f ∈ dedupAcc (ps.map dirname) [] :=
      (dedupAcc_mem (ps.map dirname) [] (dirname f)).mpr
        (Or.inl (List.mem_map_of_mem dirname hf))
    exact ⟨_, List.mem_map_of_mem _ hdir, rfl⟩

theorem mem_dropWhile_imp {p : α → Bool} : ∀ {l : List α} {x : α},
    x ∈ l.dropWhile p → x ∈ l := by
  intro l
  induction l with
  | nil =>
    intro x h
    simp at h
  | cons a l ih =>
    intro x h
    rw [List.dropWhile_cons] at h
    split_ifs at h
    · exact List.mem_cons_of_mem a (ih h)
    · exact h

theorem dirname_semiFree (p : String) (h : semiFree p) : semiFree (dirname p) := by
  unfold dirname
  dsimp only
  split_ifs with h1 h2
  · intro hm
    simp at hm
  · intro hm
    have : ';' ∈ p.data := List.mem_of_mem_take (by simpa using hm)
    exact h this
  · intro hm
    simp only at hm
    have hm2 : ';' ∈ (p.data.take (p.data.length -
        (p.data.reverse.takeWhile (· ≠ '/')).length)).reverse := by
      have := mem_dropWhile_imp (by simpa using hm)
      simpa using this
    rw [List.mem_reverse] at hm2
    exact h (List.mem_of_mem_take hm2)

theorem fbLine_chunks (lang fp : String) (st : FBState) (il : Nat × String) :
    ∃ extra, (fbLine lang fp st il).chunks = st.chunks ++ extra ∧
      ∀ c ∈ extra, c.file_path = fp ∧ (c.level = 3 ∨ c.level = 4) := by
  obtain ⟨i, line⟩ := il
  obtain ⟨cls, clsLines, fn, fnLines, chunks⟩ := st
  rcases fn with _ | fso <;> rcases cls with _ | cso <;>
    rcases hcl : classSearch line with _ | cname <;>
    rcases hfs : functionSearch line with _ | fname <;>
      simp only [fbLine, hcl, hfs] <;>
      first
        | (refine ⟨[], ?_, ?_⟩
           · rw [List.append_nil]
           · intro c hc
             exact absurd hc (List.not_mem_nil c))
        | (refine ⟨[_], rfl, ?_⟩
           intro c hc
           rw [List.mem_singleton] at hc
           subst hc
           exact ⟨rfl, Or.inl rfl⟩)
        | (refine ⟨[_], rfl, ?_⟩
           intro c hc
           rw [List.mem_singleton] at hc
           subst hc
           exact ⟨rfl, Or.inr rfl⟩)

theorem fbFold_chunks (lang fp : String) :
    ∀ (lines : List (Nat × String)) (st : FBState),
      ∃ extra, ((lines.foldl (fbLine lang fp) st).chunks = st.chunks ++ extra ∧
        ∀ c ∈ extra, c.file_path = fp ∧ (c.level = 3 ∨ c.level = 4)) := by
  intro lines
  induction lines with
  | nil =>
    intro st
    exact ⟨[], by simp, by simp⟩
  | cons il rest ih =>
    intro st
    rw [List.foldl_cons]
    rcases fbLine_chunks lang fp st il with ⟨e1, he1, hp1⟩
    rcases ih (fbLine lang fp st il) with ⟨e2, he2, hp2⟩
    refine ⟨e1 ++ e2, ?_, ?_⟩
    · rw [he2, he1, List.append_assoc]
    · intro c hc
      rcases List.mem_append.mp hc with h | h
      · exact hp1 c h
      · exact hp2 c h

theorem fbFinish_chunks (lang fp : String) (n : Nat) (st : FBState) :
    ∃ extra, fbFinish lang fp n st = st.chunks ++ extra ∧
      ∀ c ∈ extra, c.file_path = fp ∧ (c.level = 3 ∨ c.level = 4) := by
  obtain ⟨cls, clsLines, fn, fnLines, chunks⟩ := st
  rcases fn with _ | fso <;> rcases cls with _ | cso <;>
    simp only [fbFinish] <;>
    first
      | (refine ⟨[], ?_, ?_⟩
         · rw [List.append_nil]
         · intro c hc
           exact absurd hc (List.not_mem_nil c))
      | (refine ⟨[_], rfl, ?_⟩
         intro c hc
         rw [List.mem_singleton] at hc
         subst hc
         exact ⟨rfl, Or.inl rfl⟩)
      | (refine ⟨[_], rfl, ?_⟩
         intro c hc
         rw [List.mem_singleton] at hc
         subst hc
         exact ⟨rfl, Or.inr rfl⟩)

theorem fallback_chunks (lang fp content : String) (base : List CodeChunk) :
    ∃ extra, fallback_extract_chunks lang fp content base = base ++ extra ∧
      ∀ c ∈ extra, c.file_path = fp ∧ (c.level = 3 ∨ c.level = 4) := by
  unfold fallback_extract_chunks
  dsimp only
  rcases fbFold_chunks lang fp (enumFrom 0 (splitLines content))
    ⟨none, [], none, [], base⟩ with ⟨e1, he1, hp1⟩
  rcases fbFinish_chunks lang fp (splitLines content).length
    ((enumFrom 0 (splitLines content)).foldl (fbLine lang fp)
      ⟨none, [], none, [], base⟩) with ⟨e2, he2, hp2⟩
  refine ⟨e1 ++ e2, ?_, ?_⟩
  · rw [he2, he1]
    exact List.append_assoc base e1 e2
  · intro c hc
    rcases List.mem_append.mp hc with h | h
    · exact hp1 c h
    · exact hp2 c h

theorem extract_chunks_notBlank (lang fp content : String) (h : ¬ isBlank content) :
    ∃ extra, extract_chunks lang fp content =
      mkCodeChunk content fp lang 2 0 (countChar '\n' content) "file" :: extra ∧
      ∀ c ∈ extra, c.file_path = fp ∧ (c.level = 3 ∨ c.level = 4) := by
  unfold extract_chunks
  rw [if_neg h]
  rcases fallback_chunks lang fp content
    [mkCodeChunk content fp lang 2 0 (countChar '\n' content) "file"] with ⟨e, he, hp⟩
  refine ⟨e, ?_, hp⟩
  rw [he]
  rfl

theorem fileRecords_path (cts : List (String × String)) (f : String) :
    ∀ c ∈ fileRecords cts f, c.file_path = f := by
  intro c hc
  unfold fileRecords at hc
  rcases hlk : List.lookup f cts with _ | content
  · rw [hlk] at hc
    simp at hc
  · rw [hlk] at hc
    rcases hlang : getLang f with _ | lang
    · rw [hlang] at hc
      dsimp only at hc
      rw [List.mem_singleton] at hc
      subst hc
      rfl
    · rw [hlang] at hc
      dsimp only at hc
      by_cases hb : isBlank content
      · unfold extract_chunks at hc
        rw [if_pos hb] at hc
        simp at hc
      · rcases extract_chunks_notBlank lang f content hb with ⟨e, he, hp⟩
        rw [he] at hc
        rcases List.mem_cons.mp hc with rfl | hm
        · rfl
        · exact (hp c hm).1

theorem fileRecords_level2 (cts : List (String × String)) (f content : String)
    (hlk : List.lookup f cts = some content)
    (hok : getLang f = none ∨ ¬ isBlank content) :
    (fileRecords cts f).filter (fun c => c.level == 2) =
      [mkCodeChunk content f (langTagOf f) 2 0 (countChar '\n' content) "file"] := by
  unfold fileRecords
  rw [hlk]
  dsimp only
  rcases hlang : getLang f with _ | lang
  · have hlt : langTagOf f = "text" := by
      unfold langTagOf
      rw [hlang]
      rfl
    rw [hlt]
    rfl
  · rcases hok with hnone | hnb
    · rw [hlang] at hnone
      exact absurd hnone (by simp)
    · have hlt : langTagOf f = lang := by
        unfold langTagOf
        rw [hlang]
        rfl
      rcases extract_chunks_notBlank lang f content hnb with ⟨e, he, hp⟩
      dsimp only
      rw [he, hlt]
      rw [List.filter_cons_of_pos (by rfl)]
      have hnil : e.filter (fun c => c.level == 2) = [] := by
        rw [List.filter_eq_nil_iff]
        intro c hc
        rcases (hp c hc).2 with h3 | h4
        · simp [h3]
        · simp [h4]
      rw [hnil]

theorem chunk_files_semiFree (b : String) (ps : List String)
    (cts : List (String × String)) (hsemi : ∀ p ∈ ps, semiFree p) :
    ∀ r ∈ chunk_files b ps cts, semiFree r.file_path := by
  intro r hr
  unfold chunk_files at hr
  rcases List.mem_append.mp hr with h | h
  · rcases (chunk_directory_path_mem b ps r.file_path).mp ⟨r, h, rfl⟩ with ⟨f, hf, hdf⟩
    rw [← hdf]
    exact dirname_semiFree f (hsemi f hf)
  · rcases List.mem_flatten.mp h with ⟨lrec, hlrec, hrl⟩
    rcases List.mem_map.mp hlrec with ⟨f, hf, rfl⟩
    rw [fileRecords_path cts f r hrl]
    exact hsemi f hf

/-! ## Claim C3 -/

/-- Claim C3 counterexample: on a one-file input the `files` union contains
the containing directory path "d", which is not an input file — refuting
"no path outside file_paths appears in the union". -/
theorem c3_files_union_counterexample :
    ∃ d ∈ chunk_codebase 8192 "/b" ["d/a.txt"] [("d/a.txt", "x")],
      ∃ x ∈ d.files, x ∉ ["d/a.txt"] := by
  decide

/-- Claim C3 (amended): for inputs where every listed file has a content
entry and is either of unmapped extension or non-whitespace (so that its
extraction is not dropped), and no path contains a semicolon, the union of
`files` across the returned chunk dictionaries equals the input file set
together with the containing directory path of each input file (the
level-1 directory records contribute their directory paths to `files`). -/
theorem c3_files_union_amended (L : Nat) (b : String) (ps : List String)
    (cts : List (String × String))
    (hcov : ∀ f ∈ ps, ∃ content, List.lookup f cts = some content ∧
      (getLang f = none ∨ ¬ isBlank content))
    (hsemi : ∀ f ∈ ps, semiFree f) (x : String) :
    (∃ d ∈ chunk_codebase L b ps cts, x ∈ d.files) ↔
      (x ∈ ps ∨ ∃ f ∈ ps, dirname f = x) := by
  rw [chunk_codebase_files_mem L b ps cts (chunk_files_semiFree b ps cts hsemi) x]
  constructor
  · rintro ⟨r, hr, rfl⟩
    unfold chunk_files at hr
    rcases List.mem_append.mp hr with h | h
    · rcases (chunk_directory_path_mem b ps r.file_path).mp ⟨r, h, rfl⟩ with ⟨f, hf, hdf⟩
      exact Or.inr ⟨f, hf, hdf⟩
    · rcases List.mem_flatten.mp h with ⟨lrec, hlrec, hrl⟩
      rcases List.mem_map.mp hlrec with ⟨f, hf, rfl⟩
      rw [fileRecords_path cts f r hrl]
      exact Or.inl hf
  · rintro (hx | ⟨f, hf, hdf⟩)
    · rcases hcov x hx with ⟨content, hlk, hok⟩
      have h2 := fileRecords_level2 cts x content hlk hok
      have hmem : mkCodeChunk content x (langTagOf x) 2 0 (countChar '\n' content) "file"
          ∈ fileRecords cts x :=
        List.mem_of_mem_filter (by rw [h2]; exact List.mem_singleton_self _)
      refine ⟨mkCodeChunk content x (langTagOf x) 2 0 (countChar '\n' content) "file",
        ?_, rfl⟩
      unfold chunk_files
      exact List.mem_append.mpr (Or.inr (List.mem_flatten.mpr
        ⟨fileRecords cts x, List.mem_map_of_mem _ hx, hmem⟩))
    · rcases (chunk_directory_path_mem b ps x).mpr ⟨f, hf, hdf⟩ with ⟨c, hc, hcx⟩
      refine ⟨c, ?_, hcx⟩
      unfold chunk_files
      exact List.mem_append.mpr (Or.inl hc)

/-- Witness for C3 at the concrete counterexample input: the directory
path "d" is in the union, via the amended theorem. -/
theorem c3_files_union_witness :
    ∃ d ∈ chunk_codebase 8192 "/b" ["d/a.txt"] [("d/a.txt", "x")], "d" ∈ d.files := by
  refine (c3_files_union_amended 8192 "/b" ["d/a.txt"] [("d/a.txt", "x")] ?_ ?_ "d").mpr ?_
  · intro f hf
    rw [List.mem_singleton] at hf
    subst hf
    exact ⟨"x", by decide, Or.inl (by decide)⟩
  · intro f hf
    rw [List.mem_singleton] at hf
    subst hf
    decide
  · exact Or.inr ⟨"d/a.txt", List.mem_singleton_self _, by decide⟩

/-! ## Claim C4 -/

/-- Claim C4 counterexample: a listed `.py` file with empty content yields
no level-2 record at all (extraction returns the empty list for
whitespace-only content) and is absent from every chunk's `files` — it is
silently dropped, contrary to the claim. -/
theorem c4_empty_file_counterexample :
    (∀ r ∈ chunk_files "/b" ["a.py"] [("a.py", "")], r.level ≠ 2) ∧
      ∀ d ∈ chunk_codebase 8192 "/b" ["a.py"] [("a.py", "")], "a.py" ∉ d.files := by
  decide

/-- Claim C4 (amended): a listed file that has a content entry and whose
extension is unmapped or whose content is not whitespace-only gets exactly
one level-2 record spanning the whole file, and (when no path contains a
semicolon) is counted in the `files` of some returned chunk.  A
mapped-extension file with empty or whitespace-only content yields no
records and is dropped. -/
theorem c4_level2_amended (L : Nat) (b : String) (ps : List String)
    (cts : List (String × String)) (f content : String)
    (hf : f ∈ ps) (hlk : List.lookup f cts = some content)
    (hok : getLang f = none ∨ ¬ isBlank content)
    (hsemi : ∀ p ∈ ps, semiFree p) :
    (fileRecords cts f).filter (fun c => c.level == 2) =
        [mkCodeChunk content f (langTagOf f) 2 0 (countChar '\n' content) "file"] ∧
      ∃ d ∈ chunk_codebase L b ps cts, f ∈ d.files := by
  refine ⟨fileRecords_level2 cts f content hlk hok, ?_⟩
  rw [chunk_codebase_files_mem L b ps cts (chunk_files_semiFree b ps cts hsemi) f]
  have h2 := fileRecords_level2 cts f content hlk hok
  have hmem : mkCodeChunk content f (langTagOf f) 2 0 (countChar '\n' content) "file"
      ∈ fileRecords cts f :=
    List.mem_of_mem_filter (by rw [h2]; exact List.mem_singleton_self _)
  refine ⟨mkCodeChunk content f (langTagOf f) 2 0 (countChar '\n' content) "file",
    ?_, rfl⟩
  unfold chunk_files
  exact List.mem_append.mpr (Or.inr (List.mem_flatten.mpr
    ⟨fileRecords cts f, List.mem_map_of_mem _ hf, hmem⟩))

/-- Witness for C4 at a concrete input: the text file "d/a.txt" gets its
single whole-file level-2 record and appears in the `files` union. -/
theorem c4_level2_witness :
    (fileRecords [("d/a.txt", "x")] "d/a.txt").filter (fun c => c.level == 2) =
        [mkCodeChunk "x" "d/a.txt" (langTagOf "d/a.txt") 2 0 (countChar '\n' "x") "file"] ∧
      ∃ d ∈ chunk_codebase 8192 "/b" ["d/a.txt"] [("d/a.txt", "x")], "d/a.txt" ∈ d.files :=
  c4_level2_amended 8192 "/b" ["d/a.txt"] [("d/a.txt", "x")] "d/a.txt" "x"
    (List.mem_singleton_self _) (by decide) (Or.inl (by decide))
    (fun p hp => by rw [List.mem_singleton] at hp; subst hp; decide)
